import Mathlib

/-!
# Verification of the news emotion-analysis pipeline (`src/main.py`)

Shallow embedding of the pure core of the program: headline formatting,
day crawling with blacklist filtering and URL deduplication, date-range
collection, the classification loop with its progress state, the
progress-bar rendering (with an exact model of Python's binary64 float
arithmetic where the code uses true division), and the per-chat session
store with case-insensitive emotion filtering.

External effects (HTTP fetch, HTML parsing, the transformer classifier,
Telegram I/O) are modelled as explicit inputs: a fetch is an
`Except String page` value, the classifier is an oracle
`String → Option (List String)` (`none` models a raised exception), and
logging is dropped (it does not affect the returned values).
-/

namespace NewsBot

/-! ## Strings: Python `str.lower` on the alphabets this program uses

The source compares lowercased Russian/ASCII strings.  `lowerChar` maps
ASCII `A`–`Z` and Cyrillic `А`–`Я`/`Ё` to their lowercase forms and fixes
every other character, which agrees with Python's `str.lower` on every
string occurring in the program. -/

def lowerChar (c : Char) : Char :=
  if 'A' ≤ c ∧ c ≤ 'Z' then Char.ofNat (c.toNat + 32)
  else if 'А' ≤ c ∧ c ≤ 'Я' then Char.ofNat (c.toNat + 32)
  else if c = 'Ё' then 'ё'
  else c

def lowerString (s : String) : String :=
  String.mk (s.data.map lowerChar)

/-! ## List-of-characters helpers (Python `in` substring test, `str.strip`) -/

def isWs (c : Char) : Bool :=
  c == ' ' || c == '\t' || c == '\n' || c == '\r' || c == '\x0b' || c == '\x0c'

def isDig (c : Char) : Bool :=
  '0' ≤ c && c ≤ '9'

def startsWithL : List Char → List Char → Bool
  | [], _ => true
  | _ :: _, [] => false
  | p :: ps, c :: cs => p == c && startsWithL ps cs

/-- Python's substring containment `pat in l`. -/
def containsL (pat : List Char) : List Char → Bool
  | [] => startsWithL pat []
  | c :: rest => startsWithL pat (c :: rest) || containsL pat rest

/-- Python `str.strip()` (restricted to ASCII whitespace). -/
def stripWs (l : List Char) : List Char :=
  ((l.dropWhile isWs).reverse.dropWhile isWs).reverse

/-! ## Exact model of Python binary64 float arithmetic

The progress code uses true division and multiplication on nonnegative
values well inside the normal range of IEEE-754 binary64, then truncates
with `int(...)`.  A nonzero double is represented as `some (m, e)` with
value `m * 2 ^ e` and `2 ^ 52 ≤ m < 2 ^ 53`; `none` is `0.0`.  Rounding
is round-to-nearest, ties to even. -/

/-- Scaled pair: `scaledPair a b e = (n, d)` with `n / d = a / (b * 2 ^ e)` as exact rationals. -/
def scaledPair (a b : Nat) (e : Int) : Nat × Nat :=
  if 0 ≤ e then (a, b * 2 ^ e.toNat) else (a * 2 ^ (-e).toNat, b)

/-- Find the binade: the `e` with `2 ^ 52 ≤ a / (b * 2 ^ e) < 2 ^ 53`
(fuel-bounded search; 4200 covers the whole binary64 range). -/
def findE (a b : Nat) : Nat → Int → Int
  | 0, e => e
  | fuel + 1, e =>
    let n := (scaledPair a b e).1
    let d := (scaledPair a b e).2
    if 2 ^ 53 * d ≤ n then findE a b fuel (e + 1)
    else if n < 2 ^ 52 * d then findE a b fuel (e - 1)
    else e

/-- Round the exact rational `(a / b) * 2 ^ sh` to the nearest binary64
(ties to even), returned as `some (mantissa, exponent)`; `none` for zero. -/
def mkD (a b : Nat) (sh : Int) : Option (Nat × Int) :=
  if a = 0 ∨ b = 0 then none else
  let e := findE a b 4200 0
  let n := (scaledPair a b e).1
  let d := (scaledPair a b e).2
  let m0 := n / d
  let r := n % d
  let m := if d < 2 * r then m0 + 1
           else if 2 * r < d then m0
           else if m0 % 2 = 0 then m0 else m0 + 1
  if m = 2 ^ 53 then some (2 ^ 52, e + sh + 1) else some (m, e + sh)

/-- Binary64 result of Python's true division `a / b` on nonnegative ints. -/
def divD (a b : Nat) : Option (Nat × Int) := mkD a b 0

/-- Binary64 result of multiplying a double by the small exact integer `k`. -/
def mulDk (x : Option (Nat × Int)) (k : Nat) : Option (Nat × Int) :=
  match x with
  | none => none
  | some (m, e) => mkD (m * k) 1 e

/-- Python `int(x)` on a nonnegative double (truncation = floor). -/
def floorD : Option (Nat × Int) → Nat
  | none => 0
  | some (m, e) => if 0 ≤ e then m * 2 ^ e.toNat else m / 2 ^ (-e).toNat

/-! ## `format_progress` and the percent computed by `update_progress` -/

/-- Python `s * n` string repetition. -/
def strRepeat (s : String) : Nat → String
  | 0 => ""
  | n + 1 => s ++ strRepeat s n

/-- Filled block count: `int((percent / 100) * total_blocks)` with `total_blocks = 10`,
under exact float semantics. -/
def filled_blocks (percent : Nat) : Nat :=
  floorD (mulDk (divD percent 100) 10)

/-- `format_progress` from the source: ten emoji blocks plus the numeric percent. -/
def format_progress (percent : Nat) : String :=
  strRepeat ("🔵") (filled_blocks percent) ++
  strRepeat ("⚪") (10 - filled_blocks percent) ++
  " " ++ toString percent ++ "%"

/-- The percent computed inside `update_progress`:
`int((count / total) * 100) if total > 0 else 100`, under exact float semantics. -/
def update_progress_percent (count total : Nat) : Nat :=
  if 0 < total then floorD (mulDk (divD count total) 100) else 100

/-! ## `format_news_headline`: the regex
`^(.*?)(\d{2}:\d{2}),\s*([\d]{1,2}\s+\S+\s+\d{4})(.*)$` under `re.match`

A direct backtracking matcher for this one pattern, with Python's
leftmost/greedy semantics specialised to it (`.*?` takes the smallest
prefix that lets the remainder match; `\s*`, `\S+` and `\s+` successions
are forced to maximal munch since each is followed by a token its own
character class rejects; `[\d]{1,2}` tries two digits before one; `$`
also matches just before a single trailing newline; `.` never matches a
newline).  Character classes are restricted to ASCII digits and ASCII
whitespace, which agrees with Python on the strings this program sees. -/

def nonWs (c : Char) : Bool := !isWs c

/-- No newline anywhere in the list (what `(.*)` can consume). -/
def noNl (r : List Char) : Bool := r.all (fun c => !(c == '\n'))

/-- What `(.*)$` accepts: no newline, or a single trailing newline. -/
def tailOk (r : List Char) : Bool :=
  noNl r || (r.getLast? == some '\n' && noNl (r.dropLast))

/-- Match `\d{2}:\d{2}` at the head, returning the five matched characters. -/
def matchTime : List Char → Option (List Char × List Char)
  | a :: b :: c :: d :: e :: rest =>
    if isDig a && isDig b && c == ':' && isDig d && isDig e then
      some ([a, b, c, d, e], rest)
    else none
  | _ => none

/-- Match `\s+\S+\s+\d{4}(.*)$` after the day digits, returning the whole
captured date group and the remainder taken by `(.*)`. -/
def dateSuffix (day : List Char) (r : List Char) : Option (List Char × List Char) :=
  if (r.takeWhile isWs).isEmpty then none
  else if ((r.dropWhile isWs).takeWhile nonWs).isEmpty then none
  else if ((((r.dropWhile isWs).dropWhile nonWs)).takeWhile isWs).isEmpty then none
  else
    match (((r.dropWhile isWs).dropWhile nonWs)).dropWhile isWs with
    | y1 :: y2 :: y3 :: y4 :: r7 =>
      if isDig y1 && isDig y2 && isDig y3 && isDig y4 && tailOk r7 then
        some (day ++ ((r.takeWhile isWs) ++
          (((r.dropWhile isWs).takeWhile nonWs) ++
            (((((r.dropWhile isWs).dropWhile nonWs)).takeWhile isWs) ++ [y1, y2, y3, y4]))), r7)
      else none
    | _ => none

/-- Match `[\d]{1,2}\s+\S+\s+\d{4}(.*)$` at the head (two-digit day preferred). -/
def dateAt : List Char → Option (List Char × List Char)
  | [] => none
  | [d1] => if isDig d1 then dateSuffix [d1] [] else none
  | d1 :: d2 :: rest =>
    if isDig d1 then
      if isDig d2 then
        match dateSuffix [d1, d2] rest with
        | some x => some x
        | none => dateSuffix [d1] (d2 :: rest)
      else dateSuffix [d1] (d2 :: rest)
    else none

/-- Try the whole pattern minus the leading `(.*?)` at this exact position:
time, comma, `\s*`, date group.  Returns (time, date group, remainder). -/
def tryAt (s : List Char) : Option (List Char × List Char × List Char) :=
  match matchTime s with
  | none => none
  | some (t, r1) =>
    match r1 with
    | ',' :: r2 =>
      (match dateAt (r2.dropWhile isWs) with
       | some (d, rest) => some (t, d, rest)
       | none => none)
    | _ => none

/-- Slide the start over the non-greedy `(.*?)` prefix, leftmost first.
Returns (group 1, group 2, group 3). -/
def scan : List Char → List Char → Option (List Char × List Char × List Char)
  | pre, [] =>
    (match tryAt [] with
     | some (t, d, _) => some (pre, t, d)
     | none => none)
  | pre, c :: rest =>
    match tryAt (c :: rest) with
    | some (t, d, _) => some (pre, t, d)
    | none => if c == '\n' then none else scan (pre ++ [c]) rest

/-- Result of `re.match(pattern, headline)`: the three used capture groups. -/
def pyMatch (s : String) : Option (List Char × List Char × List Char) :=
  scan [] s.data

/-- The source's `format_news_headline`. -/
def format_news_headline (s : String) : String :=
  match pyMatch s with
  | some (p, t, d) => String.mk (stripWs p) ++ ", " ++ String.mk t ++ ", " ++ String.mk d
  | none => s

/-- Shape of the `(\d{2}:\d{2})` capture group. -/
def TimeShape (t : List Char) : Bool :=
  match t with
  | [a, b, c, d, e] => isDig a && isDig b && c == ':' && isDig d && isDig e
  | _ => false

/-- Shape of the `([\d]{1,2}\s+\S+\s+\d{4})` capture group. -/
def DateShape (d : List Char) : Prop :=
  ∃ day ws1 word ws2 yr, d = day ++ (ws1 ++ (word ++ (ws2 ++ yr))) ∧
    (day.length = 1 ∨ day.length = 2) ∧ day.all isDig = true ∧
    ws1 ≠ [] ∧ ws1.all isWs = true ∧
    word ≠ [] ∧ word.all nonWs = true ∧
    ws2 ≠ [] ∧ ws2.all isWs = true ∧
    yr.length = 4 ∧ yr.all isDig = true

/-! ## DayCrawler: `get_news_for_day` -/

def BASE_URL : String := "https://lenta.ru"

def CANDIDATE_LABELS : List String :=
  ["агрессия", "тревожность", "сарказм", "позитив", "нейтральное состояние"]

/-- The headline blacklist set literal from `get_news_for_day`
(note: the entry `"интернет и СМИ"` is copied verbatim, uppercase and all). -/
def blacklisted_headlines : List String :=
  ["узнать больше", "подробнее", "пресс-релизы", "техподдержка", "спецпроекты",
   "условия использования", "политика конфиденциальности",
   "правила применения рекомендательных технологий",
   "условиями акции lenta.ru", "политикой конфиденциальности rambler id",
   "бывший ссср", "силовые структуры", "наука и техника", "интернет и СМИ",
   "путешествия", "среда обитания", "забота о себе"]

def blacklisted_url_parts : List String :=
  ["mailto:", "/parts/", "/specprojects/", "/info/", "help.rambler.ru", "/rubrics/"]

/-- A parsed `<a href=...>` element: its stripped text and its `href`. -/
structure Link where
  text : String
  href : String
deriving DecidableEq

/-- A news item dict.  `date`, `combined_text` and `predicted_emotion` are
absent (`none`) until the corresponding phase sets them. -/
structure NewsItem where
  headline : String
  url : String
  date : Option Int
  combined_text : Option String
  predicted_emotion : Option String
deriving DecidableEq

/-- The headline test `not headline or len(headline) <= 10 or headline.lower()
in blacklisted_headlines` (true means the candidate is skipped). -/
def headlineDiscarded (h : String) : Bool :=
  decide (h = "" ∨ h.length ≤ 10 ∨ lowerString h ∈ blacklisted_headlines)

/-- Resolution of `href` into `full_url`. -/
def resolve_href (href : String) : String :=
  if startsWithL ['/'] href.data then BASE_URL ++ href
  else if startsWithL ['h', 't', 't', 'p'] href.data then href
  else BASE_URL ++ "/" ++ href

/-- The test `any(bad in full_url for bad in blacklisted_url_parts)`. -/
def urlDiscarded (full_url : String) : Bool :=
  blacklisted_url_parts.any (fun bad => containsL bad.data full_url.data)

/-- One iteration of the link loop: `none` when the candidate is skipped. -/
def mkItem (lnk : Link) : Option NewsItem :=
  let headline := format_news_headline lnk.text
  if headlineDiscarded headline then none
  else
    let full_url := resolve_href lnk.href
    if urlDiscarded full_url then none
    else some ⟨headline, full_url, none, none, none⟩

/-- The `news_items` list accumulated by the link loop. -/
def buildItems (links : List Link) : List NewsItem :=
  links.filterMap mkItem

/-- Python dict assignment `m[item.url] = item` on an insertion-ordered
association list with unique keys: replace in place, else append. -/
def updList : List NewsItem → NewsItem → List NewsItem
  | [], it => [it]
  | a :: rest, it => if a.url == it.url then it :: rest else a :: updList rest it

/-- The dedup step `{item['url']: item for item in news_items}.values()`. -/
def dedupByUrl (l : List NewsItem) : List NewsItem :=
  l.foldl updList []

/-- `get_news_for_day` with the fetch+parse effect as an explicit input:
`Except.error` models `requests.get` raising, `Except.ok links` models the
parsed `soup.find_all('a', href=True)` elements. -/
def get_news_for_day (fetch : Except String (List Link)) : List NewsItem :=
  match fetch with
  | .error _ => []
  | .ok links => dedupByUrl (buildItems links)

/-- Invariant tying a processed prefix of `news_items` to the dict state:
keys are unique, key set matches, and each stored item is the last
occurrence of its URL in the processed prefix. -/
def DedupInv (processed acc : List NewsItem) : Prop :=
  ((acc.map NewsItem.url).Nodup) ∧
  (∀ u, u ∈ acc.map NewsItem.url ↔ u ∈ processed.map NewsItem.url) ∧
  ∀ it ∈ acc, (processed.filter (fun x => x.url == it.url)).getLast? = some it

/-! ## ArticleSnippetExtractor: `get_first_sentence` -/

/-- The two paragraph queries made against the article soup:
text of the first `<p>` inside `div.topic-body__content` (when both exist),
and text of the first `<p>` anywhere. -/
structure ArticlePage where
  topicBodyP : Option String
  firstP : Option String
deriving DecidableEq

/-- First part of `re.split(r'(?<=[.!?])\s+', text)`: cut at the first
whitespace run preceded by `.`, `!` or `?`. -/
def firstSentenceSplit : List Char → List Char
  | [] => []
  | [c] => [c]
  | c :: d :: rest =>
    if (c == '.' || c == '!' || c == '?') && isWs d then [c]
    else c :: firstSentenceSplit (d :: rest)

/-- `get_first_sentence` with the fetch+parse effect as an explicit input. -/
def get_first_sentence (fetch : Except String ArticlePage) : String :=
  match fetch with
  | .error _ => ""
  | .ok pg =>
    let text := match pg.topicBodyP with
      | some t => t
      | none => ""
    let text := if text = "" then
        (match pg.firstP with
         | some t => t
         | none => "")
      else text
    String.mk (firstSentenceSplit text.data)

/-! ## DateRangeCollector: `get_news_for_date_range`

Dates are modelled as integers (ordinal days); `datetime.date` with
`timedelta(days=1)` steps is order-isomorphic to `Int`. -/

def rangeLoop (crawl : Int → List NewsItem) : Nat → Int → List (Int × List NewsItem)
  | 0, _ => []
  | n + 1, d => (d, crawl d) :: rangeLoop crawl n (d + 1)

/-- The `while current_date <= end_date` loop, building the insertion-ordered
dict `news_by_day`. -/
def get_news_for_date_range (crawl : Int → List NewsItem)
    (start_date end_date : Int) : List (Int × List NewsItem) :=
  rangeLoop crawl (end_date + 1 - start_date).toNat start_date

/-! ## EmotionTagger: the classification loop of `process_date_input` -/

/-- The progress dict shared with the reporter thread. -/
structure ProgressState where
  count : Nat
  total : Nat
  done : Bool
deriving DecidableEq

/-- `combined_text = headline (+ ". " + first_sentence if first_sentence)`. -/
def combined_text_of (first_sentence : String) (headline : String) : String :=
  if first_sentence ≠ "" then headline ++ ". " ++ first_sentence else headline

/-- One iteration of the classification loop.  The classifier oracle returns
`none` when the call raises; an empty label list hits the `result["labels"][0]`
IndexError inside the same `try`, so both paths assign the sentinel. -/
def tagOne (cl : String → Option (List String)) (fs : String → String)
    (it : NewsItem) : NewsItem :=
  let ct := combined_text_of (fs it.url) it.headline
  let pe := match cl ct with
    | some (l :: _) => l
    | some [] => "не определено"
    | none => "не определено"
  ⟨it.headline, it.url, it.date, some ct, some pe⟩

/-- The label the loop assigns to an item, as a standalone function. -/
def expectedLabel (cl : String → Option (List String)) (fs : String → String)
    (it : NewsItem) : String :=
  match cl (combined_text_of (fs it.url) it.headline) with
  | some (l :: _) => l
  | some [] => "не определено"
  | none => "не определено"

/-- The classification loop, threading the progress dict. -/
def tagLoop (cl : String → Option (List String)) (fs : String → String) :
    List NewsItem → ProgressState → List NewsItem × ProgressState
  | [], st => ([], st)
  | it :: rest, st =>
    let r := tagLoop cl fs rest ⟨st.count + 1, st.total, st.done⟩
    (tagOne cl fs it :: r.1, r.2)

/-- The whole tagging phase: initialise the progress dict, run the loop,
set `done = True` afterwards. -/
def tag (cl : String → Option (List String)) (fs : String → String)
    (items : List NewsItem) : List NewsItem × ProgressState :=
  let r := tagLoop cl fs items ⟨0, items.length, false⟩
  (r.1, ⟨r.2.count, r.2.total, true⟩)

/-! ## SessionStore: `user_context` and `callback_emotion` -/

/-- Dict assignment `user_context[chat_id] = items` on an insertion-ordered
association list. -/
def ctxPut : List (Int × List NewsItem) → Int → List NewsItem → List (Int × List NewsItem)
  | [], cid, items => [(cid, items)]
  | (k, v) :: rest, cid, items =>
    if k == cid then (cid, items) :: rest else (k, v) :: ctxPut rest cid items

/-- Dict lookup `user_context.get(chat_id, [])`. -/
def ctxGet : List (Int × List NewsItem) → Int → List NewsItem
  | [], _ => []
  | p :: rest, cid => if p.1 == cid then p.2 else ctxGet rest cid

/-- The filtering core of `callback_emotion`: items of the stored batch whose
`predicted_emotion` (defaulting to the empty string) lowercases to the
lowercased selected label. -/
def callback_emotion (store : List (Int × List NewsItem)) (cid : Int)
    (label : String) : List NewsItem :=
  (ctxGet store cid).filter
    (fun n => lowerString (n.predicted_emotion.getD ("")) == lowerString label)

/-! ## Concrete data used by witnesses -/

def fsEmpty : String → String := fun _ => ""

def demoItems : List NewsItem :=
  [⟨"aaaa aaaa aaaa", "https://lenta.ru/news/a", none, none, none⟩,
   ⟨"bbbb bbbb bbbb", "https://lenta.ru/news/b", none, none, none⟩,
   ⟨"cccc cccc cccc", "https://lenta.ru/news/c", none, none, none⟩]

/-- A classifier oracle that raises exactly on the second demo item's text. -/
def clDemo : String → Option (List String) :=
  fun s => if s == "bbbb bbbb bbbb" then none else some CANDIDATE_LABELS

def demoLinks : List Link :=
  [⟨"Первая версия заголовка", "/news/2025/03/15/a/"⟩,
   ⟨"Другая новость дня", "/news/2025/03/15/b/"⟩,
   ⟨"Вторая версия заголовка", "/news/2025/03/15/a/"⟩]

def demoItemA : NewsItem :=
  ⟨"Вторая версия заголовка", "https://lenta.ru/news/2025/03/15/a/", none, none, none⟩

def demoTagged : List NewsItem :=
  [⟨"aaaa aaaa aaaa", "https://lenta.ru/news/a", none, none, some ("агрессия")⟩,
   ⟨"bbbb bbbb bbbb", "https://lenta.ru/news/b", none, none, some ("позитив")⟩,
   ⟨"cccc cccc cccc", "https://lenta.ru/news/c", none, none, some ("Агрессия")⟩]

/-! # Theorems -/

set_option maxRecDepth 10000

/-! ## Helper lemmas for the date range -/

theorem rangeLoop_keys_mem (crawl : Int → List NewsItem) :
    ∀ (n : Nat) (d x : Int),
      x ∈ (rangeLoop crawl n d).map Prod.fst ↔ d ≤ x ∧ x < d + n := by
  intro n
  induction n with
  | zero => intro d x; simp [rangeLoop]
  | succ n ih =>
    intro d x
    simp only [rangeLoop, List.map_cons, List.mem_cons, ih]
    omega

theorem rangeLoop_keys_nodup (crawl : Int → List NewsItem) :
    ∀ (n : Nat) (d : Int), ((rangeLoop crawl n d).map Prod.fst).Nodup := by
  intro n
  induction n with
  | zero => intro d; simp [rangeLoop]
  | succ n ih =>
    intro d
    simp only [rangeLoop, List.map_cons, List.nodup_cons]
    refine ⟨fun hmem => ?_, ih (d + 1)⟩
    rw [rangeLoop_keys_mem] at hmem
    omega

/-- Claim C5: for every pair of dates `d1 ≤ d2`, the mapping returned by
`get_news_for_date_range` has as its key set exactly the dates of the
inclusive interval `[d1, d2]`, one key per date, for every crawl function
(in particular when some days crawl to empty lists). -/
theorem claim_C5 (crawl : Int → List NewsItem) (d1 d2 : Int) (h : d1 ≤ d2) :
    ((get_news_for_date_range crawl d1 d2).map Prod.fst).Nodup ∧
    ∀ d : Int, d ∈ (get_news_for_date_range crawl d1 d2).map Prod.fst ↔
      d1 ≤ d ∧ d ≤ d2 := by
  unfold get_news_for_date_range
  refine ⟨rangeLoop_keys_nodup crawl _ _, fun d => ?_⟩
  rw [rangeLoop_keys_mem]
  omega

/-- Witness for C5 at `d1 = 1`, `d2 = 3` with a crawl that returns an empty
list for every day. -/
theorem claim_C5_witness :
    ((get_news_for_date_range (fun _ => []) 1 3).map Prod.fst).Nodup ∧
    ∀ d : Int, d ∈ (get_news_for_date_range (fun _ => []) 1 3).map Prod.fst ↔
      1 ≤ d ∧ d ≤ 3 :=
  claim_C5 (fun _ => []) 1 3 (by decide)

/-- Claim C10: when `d1 > d2` the `while current_date <= end_date` loop never
runs, so `get_news_for_date_range` returns the empty mapping for every crawl
function — in particular it performs no per-day crawl at all. -/
theorem claim_C10 (start_date end_date : Int) (h : end_date < start_date)
    (crawl : Int → List NewsItem) :
    get_news_for_date_range crawl start_date end_date = [] := by
  unfold get_news_for_date_range
  have h0 : (end_date + 1 - start_date).toNat = 0 := by omega
  rw [h0]
  rfl

/-- Witness for C10 at `d1 = 5`, `d2 = 3`. -/
theorem claim_C10_witness :
    get_news_for_date_range (fun _ => [demoItemA]) 5 3 = [] :=
  claim_C10 5 3 (by decide) (fun _ => [demoItemA])

/-- Claim C9: when the page fetch raises, `get_news_for_day` returns the empty
list for that day and `get_first_sentence` returns the empty string for that
article, without propagating the error. -/
theorem claim_C9 (msg : String) :
    get_news_for_day (Except.error msg) = [] ∧
    get_first_sentence (Except.error msg) = "" :=
  ⟨rfl, rfl⟩

/-- Counterexample to C6 as stated: at `completed = 29`, `total = 100` the
code's float evaluation `int((29 / 100) * 100)` yields `28`, not
`floor(29 / 100 * 100) = 29`. -/
theorem claim_C6_counterexample :
    update_progress_percent 29 100 = 28 ∧ (100 * 29) / 100 = 29 := by
  constructor
  · decide
  · decide

/-- Claim C6 (amended): the reporter computes `percent` as the truncation of
the binary64 float evaluation of `(completed / total) * 100` when
`total > 0` — which can fall one below `floor(completed * 100 / total)`,
e.g. `28` at `completed = 29, total = 100` — and `percent = 100` when
`total = 0`; and for every integer percent in `[0, 100]` the progress string
contains exactly `floor(percent / 10)` filled segments followed by
`10 - floor(percent / 10)` empty segments plus the numeric percent. -/
theorem claim_C6_amended :
    (∀ c : Nat, update_progress_percent c 0 = 100) ∧
    (∀ p : Nat, p ≤ 100 →
      format_progress p = strRepeat ("🔵") (p / 10) ++ strRepeat ("⚪") (10 - p / 10)
        ++ " " ++ toString p ++ "%") ∧
    update_progress_percent 29 100 = 28 := by
  have hbar : ∀ p : Fin 101, filled_blocks p.val = p.val / 10 := by decide
  refine ⟨fun c => ?_, fun p hp => ?_, by decide⟩
  · simp [update_progress_percent]
  · have h := hbar ⟨p, by omega⟩
    unfold format_progress
    rw [h]

/-- Witness for C6 (amended) at `percent = 77` and `completed = 3, total = 0`. -/
theorem claim_C6_amended_witness :
    (77 ≤ 100 ∧
      format_progress 77 = strRepeat ("🔵") (77 / 10) ++ strRepeat ("⚪") (10 - 77 / 10)
        ++ " " ++ toString 77 ++ "%") ∧
    update_progress_percent 3 0 = 100 :=
  ⟨⟨by decide, claim_C6_amended.2.1 77 (by decide)⟩, claim_C6_amended.1 3⟩

/-! ## Helper lemmas for the tagging loop -/

theorem tagLoop_fst (cl : String → Option (List String)) (fs : String → String) :
    ∀ (items : List NewsItem) (st : ProgressState),
      (tagLoop cl fs items st).1 = items.map (tagOne cl fs) := by
  intro items
  induction items with
  | nil => intro st; rfl
  | cons it rest ih => intro st; simp [tagLoop, ih]

theorem tagLoop_snd (cl : String → Option (List String)) (fs : String → String) :
    ∀ (items : List NewsItem) (st : ProgressState),
      (tagLoop cl fs items st).2 = ⟨st.count + items.length, st.total, st.done⟩ := by
  intro items
  induction items with
  | nil => intro st; rfl
  | cons it rest ih =>
    intro st
    simp only [tagLoop, ih, List.length_cons, ProgressState.mk.injEq]
    exact ⟨by omega, trivial, trivial⟩

/-- Claim C2: after the classification loop runs over a batch — provided the
classifier, when it succeeds, only ranks labels from the fixed candidate
set — every item of the batch has `predicted_emotion` set to exactly one
value that is either a candidate label or the sentinel `"не определено"`,
and the number of items is unchanged. -/
theorem claim_C2 (cl : String → Option (List String)) (fs : String → String)
    (items : List NewsItem)
    (hcl : ∀ s ls, cl s = some ls → ∀ l ∈ ls, l ∈ CANDIDATE_LABELS) :
    (tag cl fs items).1.length = items.length ∧
    ∀ it ∈ (tag cl fs items).1, ∃ pe, it.predicted_emotion = some pe ∧
      (pe ∈ CANDIDATE_LABELS ∨ pe = "не определено") := by
  constructor
  · simp [tag, tagLoop_fst]
  · intro it hit
    have hmem : it ∈ items.map (tagOne cl fs) := by
      simpa [tag, tagLoop_fst] using hit
    rcases List.mem_map.1 hmem with ⟨x, hx, rfl⟩
    rcases hcl2 : cl (combined_text_of (fs x.url) x.headline) with _ | ls
    · exact ⟨"не определено", by simp [tagOne, hcl2], Or.inr rfl⟩
    · cases ls with
      | nil => exact ⟨"не определено", by simp [tagOne, hcl2], Or.inr rfl⟩
      | cons l ls' =>
        exact ⟨l, by simp [tagOne, hcl2],
          Or.inl (hcl _ _ hcl2 l (List.mem_cons_self _ _))⟩

/-- Witness for C2: a batch of three items under a classifier that always
returns the full candidate ranking. -/
theorem claim_C2_witness :
    (tag (fun _ => some CANDIDATE_LABELS) fsEmpty demoItems).1.length
        = demoItems.length ∧
    ∀ it ∈ (tag (fun _ => some CANDIDATE_LABELS) fsEmpty demoItems).1,
      ∃ pe, it.predicted_emotion = some pe ∧
        (pe ∈ CANDIDATE_LABELS ∨ pe = "не определено") :=
  claim_C2 (fun _ => some CANDIDATE_LABELS) fsEmpty demoItems
    (fun s ls h => by cases h; exact fun l hl => hl)

/-- Claim C7: in the tagging loop each item gets the classifier's top-ranked
label on success and the sentinel on failure, the loop continues past
failures, `count` is incremented for every item and `done` is set afterwards;
in particular tagging the three demo items, where the classifier call for
item 2 raises, yields labels top/sentinel/top with `count = 3` and
`done = true`. -/
theorem claim_C7 (cl : String → Option (List String)) (fs : String → String)
    (items : List NewsItem) :
    (tag cl fs items).2.count = items.length ∧
    (tag cl fs items).2.done = true ∧
    (tag cl fs items).1.map NewsItem.predicted_emotion
        = items.map (fun it => some (expectedLabel cl fs it)) ∧
    (tag clDemo fsEmpty demoItems).1.map NewsItem.predicted_emotion
        = [some ("агрессия"), some ("не определено"), some ("агрессия")] ∧
    (tag clDemo fsEmpty demoItems).2.count = 3 ∧
    (tag clDemo fsEmpty demoItems).2.done = true := by
  refine ⟨?_, ?_, ?_, by decide, by decide, by decide⟩
  · simp [tag, tagLoop_snd]
  · simp [tag]
  · simp only [tag, tagLoop_fst, List.map_map]
    rfl

/-! ## Helper lemmas for the session store -/

theorem ctxGet_put (store : List (Int × List NewsItem)) (cid : Int)
    (items : List NewsItem) : ctxGet (ctxPut store cid items) cid = items := by
  induction store with
  | nil => simp [ctxPut, ctxGet]
  | cons p rest ih =>
    rcases p with ⟨k, v⟩
    rcases hk : (k == cid) with _ | _
    · simpa [ctxPut, ctxGet, hk] using ih
    · simp [ctxPut, ctxGet, hk]

theorem ctxGet_absent (store : List (Int × List NewsItem)) (cid : Int)
    (h : cid ∉ store.map Prod.fst) : ctxGet store cid = [] := by
  induction store with
  | nil => rfl
  | cons p rest ih =>
    simp only [List.map_cons, List.mem_cons] at h
    push_neg at h
    have hk : (p.1 == cid) = false := by
      simpa [beq_iff_eq] using fun e => h.1 (e.symm)
    simp [ctxGet, hk, ih h.2]

/-- Claim C4: `callback_emotion` returns exactly those items of the batch most
recently stored for the conversation id whose `predicted_emotion`
case-insensitively equals the selected label (lowercase comparison on both
sides), in stored order, and the empty list for a conversation id with no
stored batch. -/
theorem claim_C4 (store : List (Int × List NewsItem)) (cid : Int) (label : String) :
    (∀ items, callback_emotion (ctxPut store cid items) cid label
        = items.filter
            (fun n => lowerString (n.predicted_emotion.getD ("")) == lowerString label)) ∧
    (cid ∉ store.map Prod.fst → callback_emotion store cid label = []) ∧
    List.Sublist (callback_emotion store cid label) (ctxGet store cid) ∧
    ∀ n, n ∈ callback_emotion store cid label ↔
      n ∈ ctxGet store cid ∧
        lowerString (n.predicted_emotion.getD ("")) = lowerString label := by
  refine ⟨fun items => ?_, fun h => ?_, ?_, fun n => ?_⟩
  · unfold callback_emotion
    rw [ctxGet_put]
  · unfold callback_emotion
    rw [ctxGet_absent store cid h]
    rfl
  · exact List.filter_sublist _
  · unfold callback_emotion
    rw [List.mem_filter]
    simp [beq_iff_eq]

/-- Witness for C4: the last-stored batch is filtered case-insensitively
(`"Агрессия"` matches the label `"агрессия"`), and an unknown id yields `[]`. -/
theorem claim_C4_witness :
    (callback_emotion (ctxPut [] 7 demoTagged) 7 ("агрессия")
        = demoTagged.filter
            (fun n => lowerString (n.predicted_emotion.getD ("")) == lowerString ("агрессия"))) ∧
    (callback_emotion [] 5 ("позитив") = []) :=
  ⟨(claim_C4 [] 7 ("агрессия")).1 demoTagged,
   (claim_C4 [] 5 ("позитив")).2.1 (by decide)⟩

/-! ## Helper lemmas for URL deduplication -/

theorem updList_not_mem (acc : List NewsItem) (it : NewsItem)
    (h : it.url ∉ acc.map NewsItem.url) : updList acc it = acc ++ [it] := by
  induction acc with
  | nil => rfl
  | cons a rest ih =>
    simp only [List.map_cons, List.mem_cons] at h
    push_neg at h
    have hk : (a.url == it.url) = false := by
      simpa [beq_iff_eq] using fun e => h.1 (e.symm)
    simp [updList, hk, ih h.2]

theorem updList_mem (acc : List NewsItem) (it : NewsItem)
    (hnd : (acc.map NewsItem.url).Nodup) (hm : it.url ∈ acc.map NewsItem.url) :
    ∃ l1 x l2, acc = l1 ++ x :: l2 ∧ x.url = it.url ∧
      updList acc it = l1 ++ it :: l2 ∧
      it.url ∉ l1.map NewsItem.url ∧ it.url ∉ l2.map NewsItem.url := by
  induction acc with
  | nil => simp at hm
  | cons a rest ih =>
    simp only [List.map_cons, List.nodup_cons] at hnd
    rcases hk : (a.url == it.url) with _ | _
    · have hne : a.url ≠ it.url := by
        intro e
        rw [e] at hk
        simp at hk
      have hm' := hm
      simp only [List.map_cons, List.mem_cons] at hm'
      have hm2 : it.url ∈ rest.map NewsItem.url := by
        rcases hm' with h | h
        · exact absurd h.symm hne
        · exact h
      obtain ⟨l1, x, l2, hacc, hx, hupd, h1, h2⟩ := ih hnd.2 hm2
      refine ⟨a :: l1, x, l2, by simp [hacc], hx, ?_, ?_, h2⟩
      · simp [updList, hk, hupd]
      · simp only [List.map_cons, List.mem_cons]
        push_neg
        exact ⟨fun e => hne e.symm, h1⟩
    · have hx : a.url = it.url := by simpa [beq_iff_eq] using hk
      refine ⟨[], a, rest, by simp, hx, by simp [updList, hk], by simp, ?_⟩
      rw [← hx]
      exact hnd.1

theorem dedup_step (p acc : List NewsItem) (it : NewsItem)
    (h : DedupInv p acc) : DedupInv (p ++ [it]) (updList acc it) := by
  obtain ⟨hnd, hmem, hlast⟩ := h
  by_cases hm : it.url ∈ acc.map NewsItem.url
  · obtain ⟨l1, x, l2, hacc, hx, hupd, h1, h2⟩ := updList_mem acc it hnd hm
    rw [hupd]
    have hsame : (l1 ++ it :: l2).map NewsItem.url = acc.map NewsItem.url := by
      rw [hacc]
      simp [hx]
    refine ⟨by rw [hsame]; exact hnd, fun u => ?_, fun y hy => ?_⟩
    · rw [hsame]
      rw [hmem u]
      have hit : it.url ∈ p.map NewsItem.url := (hmem it.url).1 hm
      simp only [List.map_append, List.mem_append, List.map_cons,
        List.mem_cons, List.map_nil, List.not_mem_nil]
      constructor
      · intro hu
        exact Or.inl hu
      · rintro (hu | hu | hu)
        · exact hu
        · rw [hu]; exact hit
        · exact hu.elim
    · have hsplit := List.mem_append.1 hy
      have hy2 : y = it ∨ (y ∈ l1 ∨ y ∈ l2) := by
        rcases hsplit with h' | h'
        · exact Or.inr (Or.inl h')
        · rcases List.mem_cons.1 h' with h'' | h''
          · exact Or.inl h''
          · exact Or.inr (Or.inr h'')
      rcases hy2 with rfl | hy2
      · rw [List.filter_append]
        have : [y].filter (fun x => x.url == y.url) = [y] := by simp
        rw [this, List.getLast?_concat]
      · have hyacc : y ∈ acc := by
          rw [hacc]
          rcases hy2 with h' | h'
          · exact List.mem_append_left _ h'
          · exact List.mem_append_right _ (List.mem_cons_of_mem _ h')
        have hyne : it.url ≠ y.url := by
          rcases hy2 with h' | h'
          · exact fun e => h1 (e ▸ List.mem_map_of_mem NewsItem.url h')
          · exact fun e => h2 (e ▸ List.mem_map_of_mem NewsItem.url h')
        rw [List.filter_append]
        have : [it].filter (fun x => x.url == y.url) = [] := by
          simp [beq_iff_eq]
          exact hyne
        rw [this, List.append_nil]
        exact hlast y hyacc
  · rw [updList_not_mem acc it hm]
    have hitp : it.url ∉ p.map NewsItem.url := fun h' => hm ((hmem it.url).2 h')
    refine ⟨?_, fun u => ?_, fun y hy => ?_⟩
    · simp only [List.map_append, List.map_cons, List.map_nil]
      rw [List.nodup_append]
      exact ⟨hnd, List.nodup_singleton _, by simpa using hm⟩
    · simp only [List.map_append, List.mem_append, List.map_cons,
        List.mem_cons, List.map_nil, List.not_mem_nil, or_false]
      rw [hmem u]
    · rcases List.mem_append.1 hy with h' | h'
      · have hyne : it.url ≠ y.url :=
          fun e => hm (e ▸ List.mem_map_of_mem NewsItem.url h')
        rw [List.filter_append]
        have : [it].filter (fun x => x.url == y.url) = [] := by
          simp [beq_iff_eq]
          exact hyne
        rw [this, List.append_nil]
        exact hlast y h'
      · have hy' : y = it := by simpa using h'
        subst hy'
        rw [List.filter_append]
        have : [y].filter (fun x => x.url == y.url) = [y] := by simp
        rw [this, List.getLast?_concat]

theorem dedup_fold (rest : List NewsItem) :
    ∀ p acc, DedupInv p acc → DedupInv (p ++ rest) (rest.foldl updList acc) := by
  induction rest with
  | nil => intro p acc h; simpa using h
  | cons it rest ih =>
    intro p acc h
    have hstep := dedup_step p acc it h
    have := ih (p ++ [it]) (updList acc it) hstep
    simpa using this

theorem dedup_spec (l : List NewsItem) : DedupInv l (dedupByUrl l) := by
  have h0 : DedupInv [] [] := ⟨List.nodup_nil, by simp, by simp⟩
  simpa using dedup_fold l [] [] h0

/-- Claim C1: for every list of link candidates, the list returned by
`get_news_for_day` contains each URL of the filtered candidates exactly once,
and the item kept for each URL is the last filtered candidate with that URL
in document order (last-write-wins). -/
theorem claim_C1 (links : List Link) :
    ((get_news_for_day (Except.ok links)).map NewsItem.url).Nodup ∧
    (∀ u, u ∈ (get_news_for_day (Except.ok links)).map NewsItem.url ↔
        u ∈ (buildItems links).map NewsItem.url) ∧
    ∀ it ∈ get_news_for_day (Except.ok links),
      ((buildItems links).filter (fun x => x.url == it.url)).getLast? = some it := by
  have h := dedup_spec (buildItems links)
  exact ⟨h.1, h.2.1, h.2.2⟩

/-- Witness for C1 on three links where the first and third resolve to the
same URL: the output keeps each URL once and the duplicated URL carries the
third (last) candidate's headline. -/
theorem claim_C1_witness :
    (((get_news_for_day (Except.ok demoLinks)).map NewsItem.url).Nodup ∧
      (∀ u, u ∈ (get_news_for_day (Except.ok demoLinks)).map NewsItem.url ↔
          u ∈ (buildItems demoLinks).map NewsItem.url) ∧
      ∀ it ∈ get_news_for_day (Except.ok demoLinks),
        ((buildItems demoLinks).filter (fun x => x.url == it.url)).getLast? = some it) ∧
    ((buildItems demoLinks).filter (fun x => x.url == demoItemA.url)).getLast?
        = some demoItemA ∧
    get_news_for_day (Except.ok demoLinks)
        = [demoItemA, ⟨"Другая новость дня", "https://lenta.ru/news/2025/03/15/b/",
            none, none, none⟩] :=
  ⟨claim_C1 demoLinks, (claim_C1 demoLinks).2.2 demoItemA (by decide), by decide⟩

/-- Claim C3 is violated by the code: the blacklist literal contains the
non-lowercase entry `"интернет и СМИ"`, while the code compares the
lowercased headline against the set, so a headline that case-insensitively
equals that entry (here, the 14-character headline `"Интернет и СМИ"`) is
kept by `get_news_for_day` instead of being discarded. -/
theorem claim_C3_bug :
    ("интернет и СМИ") ∈ blacklisted_headlines ∧
    lowerString ("Интернет и СМИ") = lowerString ("интернет и СМИ") ∧
    headlineDiscarded ("Интернет и СМИ") = false ∧
    get_news_for_day (Except.ok [⟨"Интернет и СМИ", "/news/2025/03/15/a/"⟩])
      = [⟨"Интернет и СМИ", "https://lenta.ru/news/2025/03/15/a/",
          none, none, none⟩] := by
  refine ⟨by decide, by decide, by decide, by decide⟩

/-! ## Helper lemmas for the headline matcher -/

theorem takeWhile_all (p : Char → Bool) (l : List Char) :
    (l.takeWhile p).all p = true := by
  rw [List.all_eq_true]
  intro x hx
  exact List.mem_takeWhile_imp hx

theorem isEmpty_false_ne_nil {l : List Char} (h : ¬l.isEmpty = true) : l ≠ [] := by
  cases l with
  | nil => simp at h
  | cons a t => simp

theorem matchTime_sound (s t r : List Char) (h : matchTime s = some (t, r)) :
    s = t ++ r ∧ TimeShape t = true := by
  rw [matchTime.eq_def] at h
  split at h
  · rename_i a b c d e rest
    split at h
    · rename_i hcond
      simp only [Option.some.injEq, Prod.mk.injEq] at h
      obtain ⟨rfl, rfl⟩ := h
      exact ⟨rfl, hcond⟩
    · exact absurd h (by simp)
  · exact absurd h (by simp)

theorem dateSuffix_sound (day r d rest : List Char)
    (hlen : day.length = 1 ∨ day.length = 2) (hdig : day.all isDig = true)
    (h : dateSuffix day r = some (d, rest)) :
    ∃ mid, d = day ++ mid ∧ r = mid ++ rest ∧ DateShape d := by
  unfold dateSuffix at h
  split_ifs at h with h1 h2 h3
  split at h
  · rename_i y1 y2 y3 y4 r7 heq
    split_ifs at h with h4
    simp only [Option.some.injEq, Prod.mk.injEq] at h
    obtain ⟨rfl, rfl⟩ := h
    simp only [Bool.and_eq_true] at h4
    refine ⟨_, rfl, ?_, ?_⟩
    · have e1 : r.takeWhile isWs ++ r.dropWhile isWs = r :=
        List.takeWhile_append_dropWhile _ _
      have e2 : (r.dropWhile isWs).takeWhile nonWs ++ (r.dropWhile isWs).dropWhile nonWs
          = r.dropWhile isWs := List.takeWhile_append_dropWhile _ _
      have e3 : ((r.dropWhile isWs).dropWhile nonWs).takeWhile isWs
            ++ ((r.dropWhile isWs).dropWhile nonWs).dropWhile isWs
          = (r.dropWhile isWs).dropWhile nonWs := List.takeWhile_append_dropWhile _ _
      rw [heq] at e3
      calc r = r.takeWhile isWs ++ r.dropWhile isWs := e1.symm
        _ = r.takeWhile isWs ++ ((r.dropWhile isWs).takeWhile nonWs
              ++ (r.dropWhile isWs).dropWhile nonWs) := by rw [e2]
        _ = r.takeWhile isWs ++ ((r.dropWhile isWs).takeWhile nonWs
              ++ (((r.dropWhile isWs).dropWhile nonWs).takeWhile isWs
                ++ (y1 :: y2 :: y3 :: y4 :: r7))) := by rw [e3]
        _ = (r.takeWhile isWs ++ ((r.dropWhile isWs).takeWhile nonWs
              ++ (((r.dropWhile isWs).dropWhile nonWs).takeWhile isWs
                ++ [y1, y2, y3, y4]))) ++ r7 := by simp
    · refine ⟨day, r.takeWhile isWs, (r.dropWhile isWs).takeWhile nonWs,
        ((r.dropWhile isWs).dropWhile nonWs).takeWhile isWs, [y1, y2, y3, y4],
        by simp, hlen, hdig, isEmpty_false_ne_nil h1, takeWhile_all _ _,
        isEmpty_false_ne_nil h2, takeWhile_all _ _,
        isEmpty_false_ne_nil h3, takeWhile_all _ _, rfl, ?_⟩
      simp [h4.1.1.1.1, h4.1.1.1.2, h4.1.1.2, h4.1.2]
  · exact absurd h (by simp)

theorem dateAt_sound (r d rest : List Char) (h : dateAt r = some (d, rest)) :
    r = d ++ rest ∧ DateShape d := by
  rw [dateAt.eq_def] at h
  split at h
  · exact absurd h (by simp)
  · rename_i d1
    split_ifs at h with hd1
    obtain ⟨mid, rfl, hmid, hshape⟩ :=
      dateSuffix_sound [d1] [] d rest (Or.inl rfl) (by simp [hd1]) h
    rcases List.append_eq_nil.1 hmid.symm with ⟨rfl, rfl⟩
    exact ⟨by simp, hshape⟩
  · rename_i d1 d2 rest0
    split_ifs at h with hd1 hd2
    · split at h
      · rename_i x heq
        simp only [Option.some.injEq] at h
        subst h
        obtain ⟨mid, rfl, hmid, hshape⟩ :=
          dateSuffix_sound [d1, d2] rest0 d rest (Or.inr rfl)
            (by simp [hd1, hd2]) heq
        exact ⟨by simp [hmid], hshape⟩
      · rename_i heq0
        obtain ⟨mid, rfl, hmid, hshape⟩ :=
          dateSuffix_sound [d1] (d2 :: rest0) d rest (Or.inl rfl)
            (by simp [hd1]) h
        exact ⟨by simp [hmid], hshape⟩
    · obtain ⟨mid, rfl, hmid, hshape⟩ :=
        dateSuffix_sound [d1] (d2 :: rest0) d rest (Or.inl rfl)
          (by simp [hd1]) h
      exact ⟨by simp [hmid], hshape⟩

theorem tryAt_sound (s t d rest : List Char) (h : tryAt s = some (t, d, rest)) :
    ∃ ws, s = t ++ (',' :: (ws ++ (d ++ rest))) ∧ TimeShape t = true ∧
      ws.all isWs = true ∧ DateShape d := by
  unfold tryAt at h
  split at h
  · exact absurd h (by simp)
  · rename_i t0 r1 heq
    split at h
    · rename_i r2
      split at h
      · rename_i d0 rest0 heq3
        simp only [Option.some.injEq, Prod.mk.injEq] at h
        obtain ⟨rfl, rfl, rfl⟩ := h
        obtain ⟨hs, ht⟩ := matchTime_sound s t0 (',' :: r2) heq
        obtain ⟨hr3, hshape⟩ := dateAt_sound _ _ _ heq3
        refine ⟨r2.takeWhile isWs, ?_, ht, takeWhile_all _ _, hshape⟩
        have e1 : r2.takeWhile isWs ++ r2.dropWhile isWs = r2 :=
          List.takeWhile_append_dropWhile _ _
        rw [hs, ← hr3, e1]
      · exact absurd h (by simp)
    · exact absurd h (by simp)

theorem scan_sound : ∀ (s pre p t d : List Char), scan pre s = some (p, t, d) →
    ∃ q ws rest, p = pre ++ q ∧
      s = q ++ (t ++ (',' :: (ws ++ (d ++ rest)))) ∧
      TimeShape t = true ∧ ws.all isWs = true ∧ DateShape d := by
  intro s
  induction s with
  | nil =>
    intro pre p t d h
    have h0 : scan pre [] = none := rfl
    rw [h0] at h
    exact absurd h (by simp)
  | cons c rest0 ih =>
    intro pre p t d h
    rcases htry : tryAt (c :: rest0) with _ | ⟨t0, d0, r0⟩
    · simp only [scan] at h
      rw [htry] at h
      by_cases hnl : (c == '\n') = true
      · rw [if_pos hnl] at h
        exact absurd h (by simp)
      · rw [if_neg hnl] at h
        obtain ⟨q, ws, rr, hq, hs, h1, h2, h3⟩ := ih (pre ++ [c]) p t d h
        refine ⟨c :: q, ws, rr, ?_, ?_, h1, h2, h3⟩
        · rw [hq]; simp
        · rw [hs]; rfl
    · simp only [scan] at h
      rw [htry] at h
      simp only [Option.some.injEq, Prod.mk.injEq] at h
      obtain ⟨rfl, rfl, rfl⟩ := h
      obtain ⟨ws, hs, h1, h2, h3⟩ := tryAt_sound (c :: rest0) t0 d0 r0 htry
      exact ⟨[], ws, r0, by simp, by simpa using hs, h1, h2, h3⟩

/-- Claim C8: `format_news_headline` either matches the
leading-text + `HH:MM` + `D Month YYYY` pattern — in which case it returns
`"{mainText}, {time}, {date}"` with any text trailing the date discarded —
or returns the input unchanged; and on the worked example it returns
`"Важная новость, 16:45, 3 марта 2025"`. -/
theorem claim_C8 (s : String) :
    (pyMatch s = none → format_news_headline s = s) ∧
    (∀ p t d, pyMatch s = some (p, t, d) →
      format_news_headline s
          = String.mk (stripWs p) ++ ", " ++ String.mk t ++ ", " ++ String.mk d ∧
      ∃ ws rest, s.data = p ++ (t ++ (',' :: (ws ++ (d ++ rest)))) ∧
        TimeShape t = true ∧ ws.all isWs = true ∧ DateShape d) ∧
    format_news_headline ("Важная новость16:45, 3 марта 2025доп.текст")
      = "Важная новость, 16:45, 3 марта 2025" := by
  refine ⟨fun h => ?_, fun p t d h => ⟨?_, ?_⟩, by decide⟩
  · simp [format_news_headline, h]
  · simp [format_news_headline, h]
  · obtain ⟨q, ws, rest, hq, hs, h1, h2, h3⟩ := scan_sound s.data [] p t d h
    refine ⟨ws, rest, ?_, h1, h2, h3⟩
    rw [hs, hq]
    simp

/-- Witness for C8: the unchanged case at a non-matching input, and the
matching case at the worked example with its concrete capture groups. -/
theorem claim_C8_witness :
    (pyMatch ("привет мир") = none ∧
      format_news_headline ("привет мир") = "привет мир") ∧
    format_news_headline ("Важная новость16:45, 3 марта 2025доп.текст")
        = String.mk (stripWs ("Важная новость").data) ++ ", "
          ++ String.mk ("16:45").data ++ ", " ++ String.mk ("3 марта 2025").data :=
  ⟨⟨by decide, (claim_C8 ("привет мир")).1 (by decide)⟩,
   ((claim_C8 ("Важная новость16:45, 3 марта 2025доп.текст")).2.1
      ("Важная новость").data ("16:45").data ("3 марта 2025").data (by decide)).1⟩

end NewsBot
